import Mathlib

/-!
Verification of the translation pipeline: document chunking, chunk grouping,
parallel group dispatch, result assembly and the task lifecycle store.
Text is modelled as `List Char`; the tokenizer is modelled abstractly by an
`encode` function that segments a text into token contents.
-/

set_option autoImplicit false

namespace TranslationAgent

/-! ## Basic list/text utilities mirroring the Python string operations -/

/-- `startsWith pat l` tests whether `pat` is an initial segment of `l`. -/
def startsWith : List Char → List Char → Bool
  | [], _ => true
  | _ :: _, [] => false
  | p :: ps, c :: cs => p == c && startsWith ps cs

/-- Python `sep in content` membership test for a contiguous sub-list. -/
def containsSub (sep : List Char) : List Char → Bool
  | [] => startsWith sep []
  | c :: rest => startsWith sep (c :: rest) || containsSub sep rest

/-- Python `str.split(sep)` scanning loop: `acc` is the piece built so far.
The `fuel` argument makes the recursion structural; every step consumes at
least one character, so `fuel = l.length` never runs out. -/
def splitOnGo (sep : List Char) : Nat → List Char → List Char → List (List Char)
  | _, [], acc => [acc]
  | 0, l, acc => [acc ++ l]
  | fuel + 1, c :: rest, acc =>
    if startsWith sep (c :: rest) then
      acc :: splitOnGo sep fuel (rest.drop (sep.length - 1)) []
    else
      splitOnGo sep fuel rest (acc ++ [c])

/-- Python `content.split(sep)` for a non-empty separator. -/
def pySplit (sep l : List Char) : List (List Char) := splitOnGo sep l.length l []

/-- Python `sep.join(parts)`. -/
def joinSep (sep : List Char) : List (List Char) → List Char
  | [] => []
  | [x] => x
  | x :: y :: rest => x ++ sep ++ joinSep sep (y :: rest)

/-- Characters removed by Python `str.strip()`: exactly the characters for
which `str.isspace()` is true, i.e. the ASCII whitespace `\t \n \v \f \r`
and space, the separator controls U+1C..U+1F, and the Unicode whitespace
NEL U+85, NBSP U+A0, U+1680, U+2000..U+200A, U+2028, U+2029, U+202F,
U+205F and the ideographic space U+3000. -/
def isPySpace (c : Char) : Bool :=
  (0x09 ≤ c.toNat && c.toNat ≤ 0x0d) || c == ' '
    || (0x1c ≤ c.toNat && c.toNat ≤ 0x1f)
    || c.toNat == 0x85 || c.toNat == 0xa0 || c.toNat == 0x1680
    || (0x2000 ≤ c.toNat && c.toNat ≤ 0x200a)
    || c.toNat == 0x2028 || c.toNat == 0x2029 || c.toNat == 0x202f
    || c.toNat == 0x205f || c.toNat == 0x3000

/-- Python `str.strip()`. -/
def pyStrip (l : List Char) : List Char :=
  ((l.dropWhile isPySpace).reverse.dropWhile isPySpace).reverse

/-- Fixed-size slicing loop shared by `_split_by_length` and
`_force_split_by_tokens` (the source advances by `n` positions per step).
Structural on `fuel`; every step consumes at least one element. -/
def splitEveryGo {α : Type} (n : Nat) : Nat → List α → List (List α)
  | _, [] => []
  | 0, l => [l]
  | fuel + 1, x :: xs => (x :: xs.take (n - 1)) :: splitEveryGo n fuel (xs.drop (n - 1))

/-- Slice a list into consecutive pieces of `n` elements (the last may be
shorter). -/
def splitEvery {α : Type} (n : Nat) (l : List α) : List (List α) :=
  splitEveryGo n l.length l

/-! ## Token counter model

`tiktoken` is modelled by a segmentation of the text into token contents.
`join_encode` is the encode/decode round trip of the tokenizer, and
`encode_slice` states that decoding a token-aligned slice and re-encoding it
yields that slice again (the contract the spec assigns to the token counter
for `truncate`, used by the forced token split). -/

structure TokenCounter where
  encode : List Char → List (List Char)
  join_encode : ∀ s, (encode s).flatten = s
  encode_slice : ∀ s a b,
    encode ((((encode s).drop a).take b).flatten) = ((encode s).drop a).take b

/-- `count_tokens(text) = len(encoding.encode(text))`. -/
def TokenCounter.count (tc : TokenCounter) (s : List Char) : Nat :=
  (tc.encode s).length

/-- Concrete tokenizer used in witnesses: one token per character. -/
def charTok : TokenCounter where
  encode s := s.map (fun c => [c])
  join_encode s := by
    induction s with
    | nil => rfl
    | cons c cs ih => simp [List.flatten, ih]
  encode_slice s a b := by
    simp [← List.map_drop, ← List.map_take]
    induction ((s.drop a).take b) with
    | nil => rfl
    | cons c cs ih => simp [List.flatten, ih]

/-! ## Document chunker (src/core/document_chunker.py) -/

inductive ChunkKind where
  | complete
  | chunk
  | subChunk
deriving DecidableEq, Repr

structure Chunk where
  content : List Char
  tokens : Nat
  chunk_id : Nat
  kind : ChunkKind
deriving DecidableEq, Repr

/-- `config.CHUNK_SEPARATORS` from config.py, in priority order. -/
def configChunkSeparators : List (List Char) :=
  [ ['\n', '#', ' '],
    ['\n', '#', '#', ' '],
    ['\n', '#', '#', '#', ' '],
    ['\n', '#', '#', '#', '#', ' '],
    ['\n', '#', '#', '#', '#', '#', ' '],
    ['\n', '#', '#', '#', '#', '#', '#', ' '],
    ['\n', '\n'],
    ['\n'],
    ['。'], ['.'], ['？'], ['?'], ['！'], ['!'] ]

/-- The finer separator list used by `_split_large_chunk`. -/
def fineSeparators : List (List Char) :=
  [ ['\n', '\n'], ['\n'], ['。'], ['.'], ['？'], ['?'], ['！'], ['!'] ]

/-- The sentence-terminator characters among the configured separators; these
are discarded by `content.split(separator)`. -/
def sentTermChars : List Char := ['。', '.', '？', '?', '！', '!']

/-- Characters that survive chunking: not whitespace and not a
sentence-terminator separator character. -/
def keepChar (c : Char) : Bool := !(isPySpace c) && !(sentTermChars.contains c)

/-- A separator is harmless when it is non-empty and either taken through the
heading branch (which re-attaches it) or made of discarded characters only. -/
def goodSep (sep : List Char) : Prop :=
  sep ≠ [] ∧ (startsWith ['\n', '#'] sep = true ∨ sep.filter keepChar = [])

instance : DecidablePred goodSep := fun sep => by
  unfold goodSep
  infer_instance

/-- Strip each part and drop the empty ones, as the list comprehensions in
`_split_by_separator` do. -/
def cleanParts (ps : List (List Char)) : List (List Char) :=
  (ps.map pyStrip).filter (fun p => !p.isEmpty)

/-- Re-attach a heading separator to every part except the first. -/
def reattachSep (sep : List Char) : List (List Char) → List (List Char)
  | [] => []
  | p :: rest => p :: rest.map (fun q => sep ++ q)

/-- `DocumentChunker._split_by_separator`. -/
def splitBySeparator (sep content : List Char) : List (List Char) :=
  if startsWith ['\n', '#'] sep then
    cleanParts (reattachSep sep (pySplit sep content))
  else
    cleanParts (pySplit sep content)

/-- `DocumentChunker._split_by_length` with `max_length = maxTok * 3`. -/
def splitByLength (maxLength : Nat) (content : List Char) : List (List Char) :=
  splitEvery maxLength content

/-- `DocumentChunker._force_split_by_tokens`. -/
def forceSplitByTokens (tc : TokenCounter) (maxTok : Nat) (content : List Char) :
    List (List Char) :=
  (splitEvery maxTok (tc.encode content)).map List.flatten

/-- One part of `_split_large_chunk`: keep it if it fits, else force-split. -/
def expandPart (tc : TokenCounter) (maxTok : Nat) (p : List Char) :
    List (List Char) :=
  if tc.count p ≤ maxTok then [p] else forceSplitByTokens tc maxTok p

/-- The separator loop of `DocumentChunker._split_large_chunk`: try each fine
separator in order; return the expanded parts when there are at least two,
otherwise fall through to the forced token split. -/
def splitLargeChunkGo (tc : TokenCounter) (maxTok : Nat) (content : List Char) :
    List (List Char) → List (List Char)
  | [] => forceSplitByTokens tc maxTok content
  | sep :: rest =>
    if containsSub sep content then
      let valid := ((splitBySeparator sep content).map (expandPart tc maxTok)).flatten
      if 1 < valid.length then valid else splitLargeChunkGo tc maxTok content rest
    else splitLargeChunkGo tc maxTok content rest

/-- `DocumentChunker._split_large_chunk`. -/
def splitLargeChunk (tc : TokenCounter) (maxTok : Nat) (content : List Char) :
    List (List Char) :=
  splitLargeChunkGo tc maxTok content fineSeparators

/-- The separator-based pieces of the first pass: the loop over
`config.CHUNK_SEPARATORS` takes the first separator occurring in the text,
and yields nothing when no separator occurs. -/
def firstPassBySep (content : List Char) : List (List Char) :=
  match configChunkSeparators.find? (fun sep => containsSub sep content) with
  | some sep => splitBySeparator sep content
  | none => []

/-- First-pass pieces of `chunk_document`: if the separator split produced no
pieces (`if not chunks`), fall back to length-based slicing. -/
def firstPassPieces (maxTok : Nat) (content : List Char) : List (List Char) :=
  if (firstPassBySep content).isEmpty then splitByLength (maxTok * 3) content
  else firstPassBySep content

/-- Second pass of `chunk_document`: chunks over the ceiling are re-split and
their sub-chunks get `chunk_id = len(final_chunks)` at append time, while
chunks within the ceiling are appended unchanged (keeping their first-pass
id). -/
def secondPass (tc : TokenCounter) (maxTok : Nat) :
    List Chunk → List Chunk → List Chunk
  | acc, [] => acc
  | acc, c :: rest =>
    if maxTok < c.tokens then
      secondPass tc maxTok
        (acc ++ (splitLargeChunk tc maxTok c.content).enum.map
          (fun p => ⟨p.2, tc.count p.2, acc.length + p.1, ChunkKind.subChunk⟩))
        rest
    else
      secondPass tc maxTok (acc ++ [c]) rest

/-- `DocumentChunker.chunk_document`. -/
def chunkDocument (tc : TokenCounter) (maxTok : Nat) (content : List Char) :
    List Chunk :=
  if tc.count content ≤ maxTok then
    [⟨content, tc.count content, 0, ChunkKind.complete⟩]
  else
    let pieces := firstPassPieces maxTok content
    let resultChunks :=
      pieces.enum.map (fun p => (⟨p.2, tc.count p.2, p.1, ChunkKind.chunk⟩ : Chunk))
    secondPass tc maxTok [] resultChunks

/-! ## Chunk grouping (DocumentChunker.create_chunk_groups) -/

def sumTokens (g : List Chunk) : Nat := (g.map (·.tokens)).sum

/-- The grouping loop: `cur` is the group being built, `curTok` its running
token total (`current_group` and `current_group_tokens` in the source). -/
def groupsGo (maxSize maxTok : Nat) :
    List Chunk → Nat → List Chunk → List (List Chunk)
  | cur, _, [] => if cur.isEmpty then [] else [cur]
  | cur, curTok, c :: rest =>
    if cur.length < maxSize ∧ curTok + c.tokens ≤ maxTok then
      groupsGo maxSize maxTok (cur ++ [c]) (curTok + c.tokens) rest
    else
      (if cur.isEmpty then [] else [cur]) ++ groupsGo maxSize maxTok [c] c.tokens rest

/-- `DocumentChunker.create_chunk_groups`, with the two thresholds
(`config.DEFAULT_GROUP_SIZE` and `int(config.MAX_TOKENS * config.GROUP_TOKEN_RATIO)`
in the source) taken as parameters. -/
def createChunkGroups (maxSize maxTok : Nat) (chunks : List Chunk) :
    List (List Chunk) :=
  groupsGo maxSize maxTok [] 0 chunks

/-! ## Translation engine (src/core/translation_engine.py)

The backend call `self.llm.invoke(...).content` is abstracted as a function
from the chunk content to either the translated text or the string of the
raised exception. -/

structure TResult where
  original_content : List Char
  translated_content : List Char
  chunk_id : Nat
  input_tokens : Nat
  output_tokens : Nat
  success : Bool
  error : Option (List Char)
deriving DecidableEq, Repr

/-- The `as_completed` loop: each finished future writes its group result
into the slot owned by its group index. `arrival` is the completion order. -/
def fillSlots (computed : Nat → List TResult) :
    List Nat → List (Option (List TResult)) → List (Option (List TResult))
  | [], slots => slots
  | i :: rest, slots => fillSlots computed rest (slots.set i (some (computed i)))

/-- The per-result block appended by the assembly loop: the translated text on
success, otherwise a marked failure block wrapping the original content. -/
def assemblePart (r : TResult) : List Char :=
  if r.success then r.translated_content
  else
    ['【', '翻', '译', '失', '败', ':', ' ']
      ++ (match r.error with
          | some e => e
          | none => ['N', 'o', 'n', 'e'])
      ++ ['】', '\n'] ++ r.original_content

/-- The assembled document: the blocks joined by a blank line, in the order
of the result list (the source applies no sorting). -/
def assembleResults (results : List TResult) : List Char :=
  joinSep ['\n', '\n'] (results.map assemblePart)

/-! ## Task store (src/api/task_manager.py)

Task ids (uuid strings in the source) are modelled as naturals; the dict of
tasks as an association list. `set_status`, `set_result` and `set_error`
raise `KeyError` on an unknown id, modelled by `Except Unit`. -/

inductive TaskStatus where
  | pending
  | running
  | completed
  | failed
deriving DecidableEq, Repr

structure Task where
  status : TaskStatus
  result : Option (List Char)
  error : Option (List Char)
deriving DecidableEq, Repr

abbrev TaskStore := List (Nat × Task)

/-- Dictionary lookup `self._tasks[task_id]` (first matching entry). -/
def findTask (s : TaskStore) (id : Nat) : Option Task :=
  (s.find? (fun p => p.1 == id)).map (fun p => p.2)

/-- Overwrite the record stored under `id`. -/
def updateTask (s : TaskStore) (id : Nat) (f : Task → Task) : TaskStore :=
  s.map (fun p => if p.1 == id then (p.1, f p.2) else p)

/-- `TaskManager.create_task` with the fresh uuid passed in explicitly. -/
def createTask (s : TaskStore) (id : Nat) : TaskStore :=
  s ++ [(id, ⟨TaskStatus.pending, none, none⟩)]

/-- `TaskManager.set_status`: unconditional overwrite if the task exists. -/
def setStatus (s : TaskStore) (id : Nat) (st : TaskStatus) :
    Except Unit TaskStore :=
  if (findTask s id).isSome then
    Except.ok (updateTask s id (fun t => { t with status := st }))
  else Except.error ()

/-- `TaskManager.set_result`: store the result, then set status completed. -/
def setResult (s : TaskStore) (id : Nat) (r : List Char) :
    Except Unit TaskStore :=
  if (findTask s id).isSome then
    Except.ok (updateTask s id
      (fun t => { t with result := some r, status := TaskStatus.completed }))
  else Except.error ()

/-- `TaskManager.set_error`: store the error, then set status failed. -/
def setError (s : TaskStore) (id : Nat) (e : List Char) :
    Except Unit TaskStore :=
  if (findTask s id).isSome then
    Except.ok (updateTask s id
      (fun t => { t with error := some e, status := TaskStatus.failed }))
  else Except.error ()

/-! ## Lemmas about the text utilities -/

theorem startsWith_eq_append {p l : List Char} (h : startsWith p l = true) :
    p ++ l.drop p.length = l := by
  induction p generalizing l with
  | nil => simp
  | cons a as ih =>
    cases l with
    | nil => simp [startsWith] at h
    | cons c cs =>
      simp only [startsWith, Bool.and_eq_true, beq_iff_eq] at h
      simp only [List.cons_append, List.length_cons, List.drop_succ_cons]
      rw [ih h.2, h.1]

theorem splitOnGo_ne_nil (sep : List Char) :
    ∀ (fuel : Nat) (l acc : List Char), splitOnGo sep fuel l acc ≠ [] := by
  intro fuel
  induction fuel with
  | zero =>
    intro l acc
    cases l <;> simp [splitOnGo]
  | succ fuel ih =>
    intro l acc
    cases l with
    | nil => simp [splitOnGo]
    | cons c rest =>
      rw [splitOnGo]
      split
      · simp
      · exact ih rest (acc ++ [c])

theorem joinSep_cons (sep x : List Char) {ys : List (List Char)} (h : ys ≠ []) :
    joinSep sep (x :: ys) = x ++ sep ++ joinSep sep ys := by
  cases ys with
  | nil => exact absurd rfl h
  | cons y rest => rfl

theorem joinSep_splitOnGo (sep : List Char) (hsep : sep ≠ []) :
    ∀ (fuel : Nat) (l acc : List Char), l.length ≤ fuel →
      joinSep sep (splitOnGo sep fuel l acc) = acc ++ l := by
  intro fuel
  induction fuel with
  | zero =>
    intro l acc hl
    have : l = [] := List.length_eq_zero.mp (by omega)
    subst this
    simp [splitOnGo, joinSep]
  | succ fuel ih =>
    intro l acc hl
    cases l with
    | nil => simp [splitOnGo, joinSep]
    | cons c rest =>
      rw [splitOnGo]
      split
      · rename_i hsw
        rw [joinSep_cons sep acc (splitOnGo_ne_nil sep _ _ _),
          ih (rest.drop (sep.length - 1)) [] (by
            simp only [List.length_drop]
            simp only [List.length_cons] at hl
            omega)]
        have hrec : sep ++ (c :: rest).drop sep.length = c :: rest :=
          startsWith_eq_append hsw
        have hlen : 1 ≤ sep.length := by
          cases sep with
          | nil => exact absurd rfl hsep
          | cons s ss => simp
        have hdrop : (c :: rest).drop sep.length = rest.drop (sep.length - 1) := by
          cases hs : sep.length with
          | zero => omega
          | succ n => simp [List.drop_succ_cons, hs]
        simp only [List.nil_append, List.append_assoc]
        rw [← hdrop, hrec]
      · rw [ih rest (acc ++ [c]) (by
            simp only [List.length_cons] at hl
            omega)]
        simp

theorem joinSep_pySplit (sep : List Char) (hsep : sep ≠ []) (l : List Char) :
    joinSep sep (pySplit sep l) = l := by
  simpa using joinSep_splitOnGo sep hsep l.length l [] (le_refl _)

theorem flatten_splitEveryGo {α : Type} (n : Nat) :
    ∀ (fuel : Nat) (l : List α), l.length ≤ fuel →
      (splitEveryGo n fuel l).flatten = l := by
  intro fuel
  induction fuel with
  | zero =>
    intro l hl
    have : l = [] := List.length_eq_zero.mp (by omega)
    subst this
    simp [splitEveryGo]
  | succ fuel ih =>
    intro l hl
    cases l with
    | nil => simp [splitEveryGo]
    | cons x xs =>
      rw [splitEveryGo]
      simp only [List.flatten_cons]
      rw [ih (xs.drop (n - 1)) (by
        simp only [List.length_drop]
        simp only [List.length_cons] at hl
        omega)]
      simp [List.take_append_drop]

theorem flatten_splitEvery {α : Type} (n : Nat) (l : List α) :
    (splitEvery n l).flatten = l :=
  flatten_splitEveryGo n l.length l (le_refl _)

theorem mem_splitEveryGo {α : Type} (n : Nat) :
    ∀ (fuel : Nat) (l piece : List α), l.length ≤ fuel →
      piece ∈ splitEveryGo n fuel l → ∃ a, piece = (l.drop a).take (max n 1) := by
  intro fuel
  induction fuel with
  | zero =>
    intro l piece hl h
    have : l = [] := List.length_eq_zero.mp (by omega)
    subst this
    simp [splitEveryGo] at h
  | succ fuel ih =>
    intro l piece hl h
    cases l with
    | nil => simp [splitEveryGo] at h
    | cons x xs =>
      rw [splitEveryGo] at h
      rcases List.mem_cons.mp h with h1 | h2
      · refine ⟨0, ?_⟩
        have hm : max n 1 = (n - 1) + 1 := by omega
        rw [h1, List.drop_zero, hm, List.take_succ_cons]
      · obtain ⟨a, ha⟩ := ih (xs.drop (n - 1)) piece (by
          simp only [List.length_drop]
          simp only [List.length_cons] at hl
          omega) h2
        refine ⟨(n - 1) + 1 + a, ?_⟩
        rw [ha]
        have heq : (x :: xs).drop ((n - 1) + 1 + a) = (xs.drop (n - 1)).drop a := by
          have h1 : (n - 1) + 1 + a = ((n - 1) + a) + 1 := by omega
          rw [h1, List.drop_succ_cons, List.drop_drop]
        rw [heq]

theorem mem_splitEvery {α : Type} (n : Nat) (l piece : List α)
    (h : piece ∈ splitEvery n l) : ∃ a, piece = (l.drop a).take (max n 1) :=
  mem_splitEveryGo n l.length l piece (le_refl _) h

theorem length_mem_splitEvery {α : Type} (n : Nat) (hn : 1 ≤ n)
    (l piece : List α) (h : piece ∈ splitEvery n l) : piece.length ≤ n := by
  obtain ⟨a, ha⟩ := mem_splitEvery n l piece h
  rw [ha]
  have hmax : max n 1 = n := by omega
  rw [hmax]
  exact List.length_take_le n (l.drop a)

/-! Filter transport: filtering with a predicate that rejects whitespace is
invariant under strip and empty-part removal. -/

theorem filter_dropWhile_space (q : Char → Bool)
    (hq : ∀ c, isPySpace c = true → q c = false) (l : List Char) :
    (l.dropWhile isPySpace).filter q = l.filter q := by
  induction l with
  | nil => rfl
  | cons c cs ih =>
    by_cases hc : isPySpace c = true
    · rw [List.dropWhile_cons_of_pos hc, ih, List.filter_cons_of_neg]
      simp [hq c hc]
    · rw [List.dropWhile_cons_of_neg hc]

theorem filter_pyStrip (q : Char → Bool)
    (hq : ∀ c, isPySpace c = true → q c = false) (l : List Char) :
    (pyStrip l).filter q = l.filter q := by
  unfold pyStrip
  rw [List.filter_reverse, filter_dropWhile_space q hq, List.filter_reverse,
    filter_dropWhile_space q hq, List.reverse_reverse]

theorem flatten_filter_nonempty {α : Type} (L : List (List α)) :
    (L.filter (fun p => !p.isEmpty)).flatten = L.flatten := by
  induction L with
  | nil => rfl
  | cons x xs ih =>
    by_cases hx : x.isEmpty
    · rw [List.filter_cons_of_neg (by simp [hx])]
      rw [List.isEmpty_iff] at hx
      simp [hx, ih]
    · rw [List.filter_cons_of_pos (by simp [hx])]
      simp [ih]

theorem filter_flatten_cleanParts (q : Char → Bool)
    (hq : ∀ c, isPySpace c = true → q c = false) (ps : List (List Char)) :
    ((cleanParts ps).flatten).filter q = (ps.flatten).filter q := by
  unfold cleanParts
  rw [flatten_filter_nonempty, List.filter_flatten, List.filter_flatten,
    List.map_map]
  congr 1
  apply List.map_congr_left
  intro p _
  exact filter_pyStrip q hq p

theorem filter_joinSep (q : Char → Bool) (sep : List Char)
    (hsep : sep.filter q = []) (ps : List (List Char)) :
    (joinSep sep ps).filter q = (ps.flatten).filter q := by
  match ps with
  | [] => rfl
  | [x] => simp [joinSep]
  | x :: y :: rest =>
    rw [joinSep, List.filter_append, List.filter_append,
      filter_joinSep q sep hsep (y :: rest), hsep]
    simp

theorem flatten_reattachSep (sep : List Char) (ps : List (List Char)) :
    (reattachSep sep ps).flatten = joinSep sep ps := by
  match ps with
  | [] => rfl
  | [x] => simp [reattachSep, joinSep]
  | x :: y :: rest =>
    rw [joinSep_cons sep x (by simp)]
    have ih := flatten_reattachSep sep (y :: rest)
    unfold reattachSep at ih ⊢
    simp only [List.flatten_cons, List.map_cons] at ih ⊢
    rw [← List.append_assoc, ← ih]
    simp

/-! ## Content preservation through the chunker -/

theorem keepChar_space {c : Char} (h : isPySpace c = true) : keepChar c = false := by
  simp [keepChar, h]

theorem configChunkSeparators_good : ∀ sep ∈ configChunkSeparators, goodSep sep := by
  decide

theorem fineSeparators_good : ∀ sep ∈ fineSeparators, goodSep sep := by
  decide

theorem filter_flatten_splitBySeparator {sep : List Char} (hs : goodSep sep)
    (content : List Char) :
    ((splitBySeparator sep content).flatten).filter keepChar
      = content.filter keepChar := by
  obtain ⟨hne, hgood⟩ := hs
  unfold splitBySeparator
  by_cases hh : startsWith ['\n', '#'] sep = true
  · rw [if_pos hh, filter_flatten_cleanParts keepChar (fun c h => keepChar_space h),
      flatten_reattachSep, joinSep_pySplit sep hne]
  · rw [if_neg hh, filter_flatten_cleanParts keepChar (fun c h => keepChar_space h)]
    rcases hgood with h1 | h2
    · exact absurd h1 hh
    · rw [← filter_joinSep keepChar sep h2, joinSep_pySplit sep hne]

theorem flatten_forceSplitByTokens (tc : TokenCounter) (maxTok : Nat)
    (content : List Char) :
    (forceSplitByTokens tc maxTok content).flatten = content := by
  unfold forceSplitByTokens
  rw [← List.flatten_flatten, flatten_splitEvery, tc.join_encode]

theorem flatten_expandPart (tc : TokenCounter) (maxTok : Nat) (p : List Char) :
    (expandPart tc maxTok p).flatten = p := by
  unfold expandPart
  split
  · simp
  · exact flatten_forceSplitByTokens tc maxTok p

theorem count_mem_forceSplitByTokens (tc : TokenCounter) {maxTok : Nat}
    (hn : 1 ≤ maxTok) (content piece : List Char)
    (h : piece ∈ forceSplitByTokens tc maxTok content) :
    tc.count piece ≤ maxTok := by
  unfold forceSplitByTokens at h
  obtain ⟨slice, hmem, hflat⟩ := List.mem_map.mp h
  obtain ⟨a, ha⟩ := mem_splitEvery maxTok (tc.encode content) slice hmem
  have hcount : tc.encode piece = slice := by
    rw [← hflat, ha]
    exact tc.encode_slice content a (max maxTok 1)
  unfold TokenCounter.count
  rw [hcount, ha]
  have hmax : max maxTok 1 = maxTok := by omega
  rw [hmax]
  exact List.length_take_le maxTok _

theorem count_mem_expandPart (tc : TokenCounter) {maxTok : Nat}
    (hn : 1 ≤ maxTok) (p piece : List Char)
    (h : piece ∈ expandPart tc maxTok p) : tc.count piece ≤ maxTok := by
  unfold expandPart at h
  split at h
  · rename_i hle
    rw [List.mem_singleton.mp h]
    exact hle
  · exact count_mem_forceSplitByTokens tc hn p piece h

theorem flatten_splitLargeChunkGo (tc : TokenCounter) (maxTok : Nat)
    (content : List Char) (seps : List (List Char))
    (hseps : ∀ sep ∈ seps, goodSep sep) :
    ((splitLargeChunkGo tc maxTok content seps).flatten).filter keepChar
      = content.filter keepChar := by
  induction seps with
  | nil =>
    rw [splitLargeChunkGo, flatten_forceSplitByTokens]
  | cons sep rest ih =>
    have ihrest := ih (fun s hs => hseps s (List.mem_cons_of_mem sep hs))
    rw [splitLargeChunkGo]
    split
    · simp only
      split
      · rw [List.flatten_flatten, List.map_map]
        have hmapped :
            (splitBySeparator sep content).map
              (fun p => (expandPart tc maxTok p).flatten)
              = (splitBySeparator sep content).map id :=
          List.map_congr_left (fun p _ => flatten_expandPart tc maxTok p)
        have hcomp :
            (List.flatten ∘ expandPart tc maxTok)
              = fun p => (expandPart tc maxTok p).flatten := rfl
        rw [hcomp, hmapped, List.map_id]
        exact filter_flatten_splitBySeparator
          (hseps sep (List.mem_cons_self sep rest)) content
      · exact ihrest
    · exact ihrest

theorem count_mem_splitLargeChunkGo (tc : TokenCounter) {maxTok : Nat}
    (hn : 1 ≤ maxTok) (content piece : List Char) (seps : List (List Char))
    (h : piece ∈ splitLargeChunkGo tc maxTok content seps) :
    tc.count piece ≤ maxTok := by
  induction seps with
  | nil =>
    rw [splitLargeChunkGo] at h
    exact count_mem_forceSplitByTokens tc hn content piece h
  | cons sep rest ih =>
    rw [splitLargeChunkGo] at h
    split at h
    · simp only at h
      split at h
      · obtain ⟨parts, hp, hmem⟩ := List.mem_flatten.mp h
        obtain ⟨p, _, hpe⟩ := List.mem_map.mp hp
        exact count_mem_expandPart tc hn p piece (hpe ▸ hmem)
      · exact ih h
    · exact ih h

theorem flatten_splitLargeChunk (tc : TokenCounter) (maxTok : Nat)
    (content : List Char) :
    ((splitLargeChunk tc maxTok content).flatten).filter keepChar
      = content.filter keepChar :=
  flatten_splitLargeChunkGo tc maxTok content fineSeparators fineSeparators_good

theorem count_mem_splitLargeChunk (tc : TokenCounter) {maxTok : Nat}
    (hn : 1 ≤ maxTok) (content piece : List Char)
    (h : piece ∈ splitLargeChunk tc maxTok content) :
    tc.count piece ≤ maxTok :=
  count_mem_splitLargeChunkGo tc hn content piece fineSeparators h

theorem map_content_subChunks (tc : TokenCounter) (base : Nat)
    (subs : List (List Char)) :
    ((subs.enum.map
        (fun p => (⟨p.2, tc.count p.2, base + p.1, ChunkKind.subChunk⟩ : Chunk))).map
      (·.content)) = subs := by
  rw [List.map_map]
  have h : ((fun c : Chunk => c.content) ∘
      (fun p : Nat × List Char =>
        (⟨p.2, tc.count p.2, base + p.1, ChunkKind.subChunk⟩ : Chunk)))
      = Prod.snd := rfl
  rw [h, List.enum_map_snd]

theorem filter_flatten_secondPass (tc : TokenCounter) (maxTok : Nat) :
    ∀ (cs acc : List Chunk),
      (((secondPass tc maxTok acc cs).map (·.content)).flatten).filter keepChar
        = ((((acc ++ cs).map (·.content)).flatten)).filter keepChar := by
  intro cs
  induction cs with
  | nil => intro acc; rw [secondPass, List.append_nil]
  | cons c rest ih =>
    intro acc
    rw [secondPass]
    split
    · have hmid :
          ((((splitLargeChunk tc maxTok c.content).enum.map
              (fun p =>
                (⟨p.2, tc.count p.2, acc.length + p.1, ChunkKind.subChunk⟩ : Chunk))).map
            (·.content)).flatten).filter keepChar
            = c.content.filter keepChar := by
        rw [map_content_subChunks, flatten_splitLargeChunk]
      rw [ih]
      simp only [List.map_append, List.flatten_append, List.filter_append,
        List.map_cons, List.flatten_cons]
      rw [hmid]
      simp [List.append_assoc]
    · rw [ih]
      simp [List.append_assoc]

theorem secondPass_id_of_small (tc : TokenCounter) (maxTok : Nat) :
    ∀ (cs acc : List Chunk), (∀ c ∈ cs, c.tokens ≤ maxTok) →
      secondPass tc maxTok acc cs = acc ++ cs := by
  intro cs
  induction cs with
  | nil => intro acc _; rw [secondPass, List.append_nil]
  | cons c rest ih =>
    intro acc h
    rw [secondPass]
    split
    · rename_i hlt
      exact absurd (h c (List.mem_cons_self c rest)) (by omega)
    · rw [ih (acc ++ [c]) (fun x hx => h x (List.mem_cons_of_mem c hx))]
      simp

theorem tokens_secondPass (tc : TokenCounter) {maxTok : Nat} (hn : 1 ≤ maxTok) :
    ∀ (cs acc : List Chunk), (∀ c ∈ acc, c.tokens ≤ maxTok) →
      ∀ c ∈ secondPass tc maxTok acc cs, c.tokens ≤ maxTok := by
  intro cs
  induction cs with
  | nil =>
    intro acc hacc c hc
    rw [secondPass] at hc
    exact hacc c hc
  | cons c rest ih =>
    intro acc hacc x hx
    rw [secondPass] at hx
    split at hx
    · refine ih _ ?_ x hx
      intro y hy
      rcases List.mem_append.mp hy with h1 | h2
      · exact hacc y h1
      · obtain ⟨p, hp, hpe⟩ := List.mem_map.mp h2
        have : y.tokens = tc.count p.2 := by rw [← hpe]
        rw [this]
        refine count_mem_splitLargeChunk tc hn c.content p.2 ?_
        have hsnd := List.mem_map_of_mem Prod.snd hp
        rw [List.enum_map_snd] at hsnd
        exact hsnd
    · rename_i hle
      refine ih _ ?_ x hx
      intro y hy
      rcases List.mem_append.mp hy with h1 | h2
      · exact hacc y h1
      · rw [List.mem_singleton.mp h2]
        omega

theorem filter_flatten_firstPassBySep {content : List Char}
    (h : ¬ (firstPassBySep content).isEmpty = true) :
    ((firstPassBySep content).flatten).filter keepChar
      = content.filter keepChar := by
  unfold firstPassBySep at h ⊢
  cases hf : configChunkSeparators.find? (fun sep => containsSub sep content) with
  | none => rw [hf] at h; simp at h
  | some sep =>
    have hgood : goodSep sep :=
      configChunkSeparators_good sep (List.mem_of_find?_eq_some hf)
    exact filter_flatten_splitBySeparator hgood content

theorem filter_flatten_firstPassPieces (maxTok : Nat) (content : List Char) :
    ((firstPassPieces maxTok content).flatten).filter keepChar
      = content.filter keepChar := by
  unfold firstPassPieces
  split
  · rw [splitByLength, flatten_splitEvery]
  · rename_i h
    exact filter_flatten_firstPassBySep h

theorem map_chunkId_resultChunks (tc : TokenCounter) (pieces : List (List Char)) :
    ((pieces.enum.map
        (fun p => (⟨p.2, tc.count p.2, p.1, ChunkKind.chunk⟩ : Chunk))).map
      (·.chunk_id)) = List.range pieces.length := by
  rw [List.map_map]
  have h : ((fun c : Chunk => c.chunk_id) ∘
      (fun p : Nat × List Char =>
        (⟨p.2, tc.count p.2, p.1, ChunkKind.chunk⟩ : Chunk)))
      = Prod.fst := rfl
  rw [h, List.enum_map_fst]

theorem map_content_resultChunks (tc : TokenCounter) (pieces : List (List Char)) :
    ((pieces.enum.map
        (fun p => (⟨p.2, tc.count p.2, p.1, ChunkKind.chunk⟩ : Chunk))).map
      (·.content)) = pieces := by
  rw [List.map_map]
  have h : ((fun c : Chunk => c.content) ∘
      (fun p : Nat × List Char =>
        (⟨p.2, tc.count p.2, p.1, ChunkKind.chunk⟩ : Chunk)))
      = Prod.snd := rfl
  rw [h, List.enum_map_snd]

/-! ## Claim C1 -/

/-- C1, claim as stated, refuted: for the document `abc.d` (5 tokens with the
one-token-per-character tokenizer, ceiling 2) the chunker splits on the
sentence terminator `.`, which `content.split(separator)` discards, so the
concatenated chunk contents lose the non-whitespace character `.`. -/
theorem C1_counterexample :
    ¬ ((((chunkDocument charTok 2 ['a', 'b', 'c', '.', 'd']).map
          (·.content)).flatten).filter (fun c => !(isPySpace c))
        = (['a', 'b', 'c', '.', 'd'].filter (fun c => !(isPySpace c)))) := by
  decide

/-- C1 (amended): concatenating the chunk contents of `chunk_document` in
list order reproduces the source text up to whitespace trimming at split
points and up to the removal of sentence-terminator separator characters
(`。 . ？ ? ！ !`) at split points; all other characters, heading markers
included, are preserved in order. Stated as: filtering out whitespace and
sentence terminators, the concatenation equals the source. -/
theorem C1_amended (tc : TokenCounter) (maxTok : Nat) (content : List Char) :
    (((chunkDocument tc maxTok content).map (·.content)).flatten).filter keepChar
      = content.filter keepChar := by
  unfold chunkDocument
  split
  · simp
  · rw [filter_flatten_secondPass]
    simp only [List.nil_append]
    rw [map_content_resultChunks, filter_flatten_firstPassPieces]

/-! ## Claim C4 -/

/-- C4, claim as stated, refuted: for the document `abc.d` with ceiling 2,
the first-pass segment `abc` is re-split into two sub-chunks with ids 0 and 1,
and the untouched segment `d` keeps its first-pass id 1, so the final id list
is `[0, 1, 1]`: neither dense nor unique, and position 2 holds id 1. -/
theorem C4_counterexample :
    ¬ ((chunkDocument charTok 2 ['a', 'b', 'c', '.', 'd']).map (·.chunk_id)
        = List.range (chunkDocument charTok 2 ['a', 'b', 'c', '.', 'd']).length) := by
  decide

/-- C4 (amended): the chunk ids are dense, ascending and unique (the chunk at
list position `i` has id `i`) whenever no first-pass segment exceeds the token
ceiling; when a segment is re-split in the second pass, its sub-chunks receive
position-based ids but every later untouched chunk keeps its first-pass id,
which can repeat an id already used. -/
theorem C4_amended (tc : TokenCounter) (maxTok : Nat) (content : List Char)
    (h : ∀ p ∈ firstPassPieces maxTok content, tc.count p ≤ maxTok) :
    (chunkDocument tc maxTok content).map (·.chunk_id)
      = List.range (chunkDocument tc maxTok content).length := by
  unfold chunkDocument
  split
  · rfl
  · have hsmall : ∀ c ∈ (firstPassPieces maxTok content).enum.map
        (fun p => (⟨p.2, tc.count p.2, p.1, ChunkKind.chunk⟩ : Chunk)),
        c.tokens ≤ maxTok := by
      intro c hc
      obtain ⟨p, hp, hpe⟩ := List.mem_map.mp hc
      have hct : c.tokens = tc.count p.2 := by rw [← hpe]
      rw [hct]
      refine h p.2 ?_
      have hsnd := List.mem_map_of_mem Prod.snd hp
      rw [List.enum_map_snd] at hsnd
      exact hsnd
    rw [secondPass_id_of_small tc maxTok _ [] hsmall]
    simp only [List.nil_append]
    rw [map_chunkId_resultChunks]
    congr 1
    rw [List.length_map, List.enum_length]

/-- C4 witness: for `ab.cd` with ceiling 2 both first-pass segments fit the
ceiling and the ids come out as `range`. -/
theorem C4_witness :
    (chunkDocument charTok 2 ['a', 'b', '.', 'c', 'd']).map (·.chunk_id)
      = List.range (chunkDocument charTok 2 ['a', 'b', '.', 'c', 'd']).length :=
  C4_amended charTok 2 ['a', 'b', '.', 'c', 'd'] (by decide)

/-! ## Claim C5 -/

/-- C5: with a positive token ceiling, every chunk returned by
`chunk_document` has a token count within the ceiling; re-split parts are
checked individually, and forced token splits produce slices of at most
`maxTok` tokens. -/
theorem C5_tokens_le_ceiling (tc : TokenCounter) {maxTok : Nat}
    (hn : 1 ≤ maxTok) (content : List Char) :
    ∀ c ∈ chunkDocument tc maxTok content, c.tokens ≤ maxTok := by
  intro c hc
  unfold chunkDocument at hc
  split at hc
  · rename_i hle
    rw [List.mem_singleton.mp hc]
    exact hle
  · exact tokens_secondPass tc hn _ [] (by simp) c hc

/-- C5 witness: the ceiling hypothesis holds at 2, and the first sub-chunk
`ab` of the document `abc.d` is in the output with 2 ≤ 2 tokens. -/
theorem C5_witness :
    (⟨['a', 'b'], 2, 0, ChunkKind.subChunk⟩ : Chunk).tokens ≤ 2 :=
  C5_tokens_le_ceiling charTok (by decide) ['a', 'b', 'c', '.', 'd'] _ (by decide)

/-! ## Claims C6 and C7: grouping -/

theorem sumTokens_append (l : List Chunk) (c : Chunk) :
    sumTokens (l ++ [c]) = sumTokens l + c.tokens := by
  simp [sumTokens]

theorem flatten_groupsGo (maxSize maxTok : Nat) :
    ∀ (chunks cur : List Chunk) (curTok : Nat),
      (groupsGo maxSize maxTok cur curTok chunks).flatten = cur ++ chunks := by
  intro chunks
  induction chunks with
  | nil =>
    intro cur curTok
    rw [groupsGo]
    by_cases hc : cur.isEmpty
    · rw [if_pos hc, List.isEmpty_iff.mp hc]
      rfl
    · rw [if_neg hc]
      simp
  | cons c rest ih =>
    intro cur curTok
    rw [groupsGo]
    split
    · rw [ih]
      simp
    · rw [List.flatten_append, ih]
      by_cases hc : cur.isEmpty
      · rw [if_pos hc, List.isEmpty_iff.mp hc]
        rfl
      · rw [if_neg hc]
        simp

theorem groupsGo_ne_nil (maxSize maxTok : Nat) :
    ∀ (chunks cur : List Chunk) (curTok : Nat),
      ∀ g ∈ groupsGo maxSize maxTok cur curTok chunks, g ≠ [] := by
  intro chunks
  induction chunks with
  | nil =>
    intro cur curTok g hg
    rw [groupsGo] at hg
    by_cases hc : cur.isEmpty
    · rw [if_pos hc] at hg
      simp at hg
    · rw [if_neg hc] at hg
      rw [List.mem_singleton.mp hg]
      exact fun h => hc (h ▸ rfl)
  | cons c rest ih =>
    intro cur curTok g hg
    rw [groupsGo] at hg
    split at hg
    · exact ih _ _ g hg
    · rcases List.mem_append.mp hg with h1 | h2
      · by_cases hc : cur.isEmpty
        · rw [if_pos hc] at h1
          simp at h1
        · rw [if_neg hc] at h1
          rw [List.mem_singleton.mp h1]
          exact fun h => hc (h ▸ rfl)
      · exact ih _ _ g h2

/-- C6: `create_chunk_groups` is an order-preserving partition: concatenating
the groups in order gives back exactly the input chunk list (so every chunk
is in exactly one group, in input order), every group is non-empty, and the
result is a function of the chunk list and the two thresholds alone. -/
theorem C6_partition (maxSize maxTok : Nat) (chunks : List Chunk) :
    (createChunkGroups maxSize maxTok chunks).flatten = chunks
      ∧ ∀ g ∈ createChunkGroups maxSize maxTok chunks, g ≠ [] :=
  ⟨by rw [createChunkGroups, flatten_groupsGo]; rfl,
   fun g hg => groupsGo_ne_nil maxSize maxTok chunks [] 0 g hg⟩

theorem groupsGo_bounds (maxSize maxTok : Nat) (hs : 1 ≤ maxSize) :
    ∀ (chunks cur : List Chunk) (curTok : Nat),
      curTok = sumTokens cur →
      cur.length ≤ maxSize →
      (sumTokens cur ≤ maxTok ∨ ∃ c, cur = [c] ∧ maxTok < c.tokens) →
      ∀ g ∈ groupsGo maxSize maxTok cur curTok chunks,
        g.length ≤ maxSize
          ∧ (sumTokens g ≤ maxTok ∨ ∃ c, g = [c] ∧ maxTok < c.tokens) := by
  intro chunks
  induction chunks with
  | nil =>
    intro cur curTok _ hlen hsum g hg
    rw [groupsGo] at hg
    by_cases hc : cur.isEmpty
    · rw [if_pos hc] at hg
      simp at hg
    · rw [if_neg hc] at hg
      rw [List.mem_singleton.mp hg]
      exact ⟨hlen, hsum⟩
  | cons c rest ih =>
    intro cur curTok htok hlen hsum g hg
    rw [groupsGo] at hg
    split at hg
    · rename_i hcond
      refine ih (cur ++ [c]) (curTok + c.tokens) ?_ ?_ ?_ g hg
      · rw [sumTokens_append, htok]
      · rw [List.length_append, List.length_singleton]
        omega
      · left
        rw [sumTokens_append, ← htok]
        exact hcond.2
    · rcases List.mem_append.mp hg with h1 | h2
      · by_cases hc : cur.isEmpty
        · rw [if_pos hc] at h1
          simp at h1
        · rw [if_neg hc] at h1
          rw [List.mem_singleton.mp h1]
          exact ⟨hlen, hsum⟩
      · refine ih [c] c.tokens (by simp [sumTokens]) (by simpa using hs) ?_ g h2
        by_cases hct : c.tokens ≤ maxTok
        · left
          simpa [sumTokens] using hct
        · right
          exact ⟨c, rfl, by omega⟩

/-- C7: with a positive size threshold, every group built by
`create_chunk_groups` has at most `maxSize` chunks, and its token total is
within `maxTok` unless the group is a singleton whose single chunk alone
exceeds `maxTok` (such a chunk is still kept, in its own group). -/
theorem C7_group_bounds (maxSize maxTok : Nat) (hs : 1 ≤ maxSize)
    (chunks : List Chunk) :
    ∀ g ∈ createChunkGroups maxSize maxTok chunks,
      g.length ≤ maxSize
        ∧ (sumTokens g ≤ maxTok ∨ ∃ c, g = [c] ∧ maxTok < c.tokens) :=
  groupsGo_bounds maxSize maxTok hs chunks [] 0 (by simp [sumTokens]) (by simp)
    (Or.inl (by simp [sumTokens]))

/-- C7 witness: with thresholds 4 and 10 on two chunks of 3 and 20 tokens,
the 20-token chunk ends up alone in the second group, which satisfies the
bounds through the oversized-singleton clause. -/
theorem C7_witness :
    ([⟨['b'], 20, 1, ChunkKind.chunk⟩] : List Chunk).length ≤ 4
      ∧ (sumTokens [⟨['b'], 20, 1, ChunkKind.chunk⟩] ≤ 10
          ∨ ∃ c, ([(⟨['b'], 20, 1, ChunkKind.chunk⟩ : Chunk)] : List Chunk) = [c]
              ∧ 10 < c.tokens) :=
  C7_group_bounds 4 10 (by decide)
    [⟨['a'], 3, 0, ChunkKind.chunk⟩, ⟨['b'], 20, 1, ChunkKind.chunk⟩]
    [⟨['b'], 20, 1, ChunkKind.chunk⟩] (by decide)

/-! ## Claims C2, C3, C10: the dispatcher -/

theorem length_fillSlots (computed : Nat → List TResult) :
    ∀ (arr : List Nat) (slots : List (Option (List TResult))),
      (fillSlots computed arr slots).length = slots.length := by
  intro arr
  induction arr with
  | nil => intro slots; rfl
  | cons i rest ih =>
    intro slots
    rw [fillSlots, ih, List.length_set]

/-- C8, evaluating the assembly code on an unsorted result list: given the
results for chunk 1 and chunk 0 in that order, the assembled document places
chunk 1 content before chunk 0 content. The assembly loop in
`translate_document` concatenates in list order and applies no sort by
`chunk_id`, contradicting the claim (and the engine comment that the chunk id
is kept for later sorting). -/
theorem C8_assembly_follows_list_order :
    assembleResults
        [⟨['b'], ['B'], 1, 1, 1, true, none⟩, ⟨['a'], ['A'], 0, 1, 1, true, none⟩]
      = ['B', '\n', '\n', 'A']
    ∧ ([⟨['b'], ['B'], 1, 1, 1, true, none⟩,
        ⟨['a'], ['A'], 0, 1, 1, true, none⟩] : List TResult).map (·.chunk_id)
      = [1, 0] := by
  decide

/-! ### Claim C9 -/

theorem findTask_updateTask_self (s : TaskStore) (id : Nat) (f : Task → Task) :
    findTask (updateTask s id f) id = (findTask s id).map f := by
  induction s with
  | nil => rfl
  | cons p rest ih =>
    unfold updateTask findTask
    rw [List.map_cons]
    by_cases hp : (p.1 == id) = true
    · rw [if_pos hp]
      simp only [List.find?_cons, hp]
      rfl
    · have hpf : (p.1 == id) = false := by simpa using hp
      rw [if_neg hp]
      simp only [List.find?_cons, hpf]
      exact ih

theorem findTask_updateTask_ne (s : TaskStore) {id id2 : Nat} (h : id2 ≠ id)
    (f : Task → Task) :
    findTask (updateTask s id2 f) id = findTask s id := by
  induction s with
  | nil => rfl
  | cons p rest ih =>
    unfold updateTask findTask
    rw [List.map_cons]
    by_cases hp2 : (p.1 == id2) = true
    · have hpid : (p.1 == id) = false := by
        have hpe : p.1 = id2 := by simpa using hp2
        rw [hpe]
        exact beq_eq_false_iff_ne.mpr h
      rw [if_pos hp2]
      simp only [List.find?_cons, hpid]
      exact ih
    · rw [if_neg hp2]
      by_cases hp : (p.1 == id) = true
      · simp only [List.find?_cons, hp]
      · have hpf : (p.1 == id) = false := by simpa using hp
        simp only [List.find?_cons, hpf]
        exact ih

/-- C9, claim as stated, refuted: a task that reached the terminal state
`completed` (via `set_result`) is mutated again by a later `set_status` call;
the store applies every mutation unconditionally, with no terminal-state
guard. -/
theorem C9_counterexample :
    ((findTask ((setResult (createTask [] 0) 0 ['r']).toOption.getD []) 0).map
        (·.status) = some TaskStatus.completed)
    ∧ ((findTask
          ((setStatus ((setResult (createTask [] 0) 0 ['r']).toOption.getD [])
            0 TaskStatus.running).toOption.getD []) 0).map (·.status)
        = some TaskStatus.running) := by
  decide

/-- C9 (amended): the task manager is last-writer-wins: on an existing task,
`set_status`, `set_result` and `set_error` always overwrite the record, even
when its status is terminal; a task record is left unchanged only by
operations addressed to a different task id. Terminal states are final only
under the application discipline of never mutating a task after completion. -/
theorem C9_amended (s : TaskStore) (id : Nat) (t : Task)
    (h : findTask s id = some t) :
    (∀ st : TaskStatus,
        (setStatus s id st).toOption.map (fun s2 => (findTask s2 id).map (·.status))
          = some (some st))
      ∧ (∀ r, (setResult s id r).toOption.map (fun s2 => findTask s2 id)
          = some (some { t with result := some r, status := TaskStatus.completed }))
      ∧ (∀ e, (setError s id e).toOption.map (fun s2 => findTask s2 id)
          = some (some { t with error := some e, status := TaskStatus.failed }))
      ∧ (∀ id2 st s2, id2 ≠ id → setStatus s id2 st = Except.ok s2 →
          findTask s2 id = some t) := by
  have hsome : (findTask s id).isSome = true := by rw [h]; rfl
  refine ⟨fun st => ?_, fun r => ?_, fun e => ?_, fun id2 st s2 hne hok => ?_⟩
  · rw [setStatus, if_pos hsome]
    simp only [Except.toOption, Option.map_some']
    rw [findTask_updateTask_self, h]
    rfl
  · rw [setResult, if_pos hsome]
    simp only [Except.toOption, Option.map_some']
    rw [findTask_updateTask_self, h]
    rfl
  · rw [setError, if_pos hsome]
    simp only [Except.toOption, Option.map_some']
    rw [findTask_updateTask_self, h]
    rfl
  · rw [setStatus] at hok
    split at hok
    · injection hok with hs2
      subst hs2
      rw [findTask_updateTask_ne s hne, h]
    · simp at hok

/-- C9 witness: on a store holding one completed task, `set_status running`
overwrites the terminal status, as the last-writer-wins theorem states. -/
theorem C9_witness :
    (setStatus [(0, ⟨TaskStatus.completed, some ['r'], none⟩)] 0
        TaskStatus.running).toOption.map
        (fun s2 => (findTask s2 0).map (·.status))
      = some (some TaskStatus.running) :=
  (C9_amended [(0, ⟨TaskStatus.completed, some ['r'], none⟩)] 0
    ⟨TaskStatus.completed, some ['r'], none⟩ (by rfl)).1 TaskStatus.running

end TranslationAgent
